import Mathlib

/-!
Verification of the user-command subsystem (`aider/user_commands.py`):
command loading, validation, registry lifecycle, and the three-way
shell / plugin / override dispatch.

Python dictionaries are modelled as association lists over `String` keys
(`DictL`), Python sets of names as `Finset String`, YAML scalar field values
as `YVal` (null or string), exceptions as `Except String`, and the
ambient module-loading machinery (`importlib`, `entry_points`) as explicit
environment parameters.  Exception message texts are abbreviated renderings of the
Python messages (quoting of `repr` is not reproduced).
-/

/-- A Python `dict` with string keys, modelled as an association list.
Well-formed dictionaries have no duplicate keys (`KeysNodup`). -/
abbrev DictL (α : Type) : Type := List (String × α)

/-- `m[k]` lookup returning `none` when the key is absent (Python `dict.get`). -/
def dictGet {α : Type} : DictL α → String → Option α
  | [], _ => none
  | (k0, v) :: rest, k => if k0 = k then some v else dictGet rest k

/-- Python `k in m`. -/
def dictContains {α : Type} : DictL α → String → Bool
  | [], _ => false
  | (k0, _) :: rest, k => if k0 = k then true else dictContains rest k

/-- Python `m[k] = v`: replace the value of an existing key in place,
otherwise append a new entry at the end. -/
def dictSet {α : Type} : DictL α → String → α → DictL α
  | [], k, v => [(k, v)]
  | (k0, v0) :: rest, k, v =>
    if k0 = k then (k0, v) :: rest else (k0, v0) :: dictSet rest k v

/-- Python `m.update(other)`: assign every entry of `other` into `m`. -/
def dictUpdate {α : Type} (m other : DictL α) : DictL α :=
  other.foldl (fun acc p => dictSet acc p.1 p.2) m

/-- Keep exactly the entries whose key satisfies `p`. -/
def dictFilterKeys {α : Type} (m : DictL α) (p : String → Bool) : DictL α :=
  m.filter (fun e => p e.1)

/-- Python `m.pop(k, None)` / `del m[k]`: remove the entry for `k`. -/
def dictErase {α : Type} (m : DictL α) (k : String) : DictL α :=
  dictFilterKeys m (fun k0 => decide (k0 ≠ k))

/-- Remove every entry whose key lies in `ks` (the registry's pop loop over a
set of names; removal order is immaterial, so it is modelled as one filter). -/
def dictEraseKeys {α : Type} (m : DictL α) (ks : Finset String) : DictL α :=
  dictFilterKeys m (fun k0 => decide (k0 ∉ ks))

/-- The key list of a dictionary. -/
def dictKeys {α : Type} (m : DictL α) : List String := m.map Prod.fst

/-- Python `set(m.keys())`. -/
def dictKeysFinset {α : Type} (m : DictL α) : Finset String := (dictKeys m).toFinset

/-- The no-duplicate-keys invariant every Python dict satisfies. -/
def KeysNodup {α : Type} (m : DictL α) : Prop := (dictKeys m).Nodup

/-! ## Command data model (`UserCommand`, `CommandLoader._create_command`) -/

/-- A YAML scalar field value as seen by the loader: `null` (Python `None`)
or a string. -/
inductive YVal where
  | null : YVal
  | str : String → YVal
deriving DecidableEq, Repr

/-- Python `str(v)` rendering used by f-strings. -/
def pyStr : YVal → String
  | .null => "None"
  | .str s => s

/-- Python truthiness of a field value: `None` and `""` are falsy. -/
def truthy : YVal → Bool
  | .null => false
  | .str s => !s.isEmpty

/-- The `UserCommand` dataclass: a named action with its kind
(`command_type`), raw definition and help text. -/
structure UserCommand where
  name : String
  command_type : String
  definition : YVal
  description : Option String
deriving DecidableEq, Repr

/-- `UserCommand` construction including `__post_init__`: the dispatch table
has exactly the keys `shell`, `plugin`, `override`; any other
`command_type` raises `ValueError` (the bound-method runners are always
truthy, so the `not self._runner` test fails exactly on a missing key). -/
def mkUserCommand (name command_type : String) (definition : YVal)
    (description : Option String) : Except String UserCommand :=
  if command_type = "shell" ∨ command_type = "plugin" ∨ command_type = "override" then
    .ok ⟨name, command_type, definition, description⟩
  else
    .error ("Unknown command type: " ++ command_type)

/-- A raw command definition from parsed YAML: either a bare string or a
mapping of fields. -/
inductive CmdDef where
  | str : String → CmdDef
  | map : DictL YVal → CmdDef
deriving DecidableEq, Repr

/-- The help text chosen by `_create_command`:
`definition.get('help') or definition.get('description') or f"Run: ..."`,
i.e. the first truthy value in that chain (absent keys give `None`). -/
def helpText (m : DictL YVal) (defv : YVal) : String :=
  if truthy ((dictGet m "help").getD .null) then pyStr ((dictGet m "help").getD .null)
  else if truthy ((dictGet m "description").getD .null) then
    pyStr ((dictGet m "description").getD .null)
  else "Run: " ++ pyStr defv

/-- `CommandLoader._create_command`: a bare string becomes a `shell` command
with synthesized description; a mapping must contain `definition`
(else `KeyError`), its `type` defaults to `"shell"` and must be one of the
three kinds (else `ValueError`). -/
def create_command (name : String) (d : CmdDef) : Except String UserCommand :=
  match d with
  | .str s => mkUserCommand name "shell" (.str s) (some ("Run: " ++ s))
  | .map m =>
    if !(dictContains m "definition") then
      .error "Command definition must include definition field"
    else
      let command_type := (dictGet m "type").getD (.str "shell")
      if command_type = YVal.str "shell" ∨ command_type = YVal.str "plugin" ∨
          command_type = YVal.str "override" then
        let defv := (dictGet m "definition").getD .null
        mkUserCommand name (pyStr command_type) defv (some (helpText m defv))
      else
        .error ("Unknown command type: " ++ pyStr command_type)

/-- The warning `_parse_commands` logs when one command fails to build. -/
def warnMsg (name e : String) : String :=
  "Failed to create command " ++ name ++ ": " ++ e

/-- The loop body of `CommandLoader._parse_commands`: walk the name →
definition entries in order; a successful build is stored under its name,
a `KeyError`/`ValueError` is logged and that entry skipped. -/
def parse_go : List (String × CmdDef) → DictL UserCommand → List String →
    DictL UserCommand × List String
  | [], acc, ws => (acc, ws)
  | (name, d) :: rest, acc, ws =>
    match create_command name d with
    | .ok c => parse_go rest (dictSet acc name c) ws
    | .error e => parse_go rest acc (ws ++ [warnMsg name e])

/-- `CommandLoader._parse_commands` on the (already unwrapped) name →
definition mapping of one source: returns the built commands and the
warnings for the skipped entries. -/
def parse_commands (cfg : DictL CmdDef) : DictL UserCommand × List String :=
  parse_go cfg [] []

/-- `CommandLoader.load_commands`: each element of `cfgs` is the parsed
mapping of one config path, in path order (a missing or unparsable file
contributes the empty mapping); each source's parsed commands are merged
into the running dict with `dict.update`, so later sources overwrite
earlier ones. -/
def load_commands (cfgs : List (DictL CmdDef)) : DictL UserCommand :=
  cfgs.foldl (fun acc cfg => dictUpdate acc (parse_commands cfg).1) []

/-! ## Registry (`UserCommandRegistry`) -/

/-- The live registry: the command mapping and, per source identifier, the
set of names that source contributed. -/
structure UserCommandRegistry where
  commands : DictL UserCommand
  sources : DictL (Finset String)

/-- `UserCommandRegistry.add_commands`: record the source's name set
(overwriting any prior set for that path) and merge the commands. -/
def add_commands (r : UserCommandRegistry) (path : String)
    (cmds : DictL UserCommand) : UserCommandRegistry :=
  { commands := dictUpdate r.commands cmds,
    sources := dictSet r.sources path (dictKeysFinset cmds) }

/-- One source entry under `drop_commands`-by-name: the dropped name is
removed from the set, and a set left empty deletes the source entry. -/
def reconcileStep (target : String) (names : Finset String) : Option (Finset String) :=
  if target ∈ names then
    if names.erase target = ∅ then none else some (names.erase target)
  else some names

/-- The reconciliation loop of `drop_commands`-by-name over all source
entries (`names.remove(target)`; `del self.sources[src]` when emptied). -/
def dropReconcile (target : String) (sources : DictL (Finset String)) :
    DictL (Finset String) :=
  sources.filterMap (fun p => (reconcileStep target p.2).map (fun n2 => (p.1, n2)))

/-- `UserCommandRegistry.drop_commands`: if `target` is a known source, pop
every name that source contributed and delete the source entry; else if it
is a known command name, delete that command and reconcile the source sets;
else report failure. Returns the new registry and the success flag. -/
def drop_commands (r : UserCommandRegistry) (target : String) :
    UserCommandRegistry × Bool :=
  if dictContains r.sources target then
    (⟨dictEraseKeys r.commands ((dictGet r.sources target).getD ∅),
      dictErase r.sources target⟩, true)
  else if dictContains r.commands target then
    (⟨dictErase r.commands target, dropReconcile target r.sources⟩, true)
  else (r, false)

/-! ## Invocation (`__call__`, `_run_shell`, `_run_plugin`, `_run_override`) -/

/-- The observable outcome of one command invocation: either a value is
returned (`Except.ok`, with `none` for Python `None`) or an exception
escapes to the caller (`Except.error`), together with the messages sent to
`io.tool_error`. -/
structure Outcome (ρ : Type) where
  result : Except String (Option ρ)
  reported : List String

/-- The `error_handler` context manager: run the body; an exception is
turned into one `io.tool_error` message prefixed by `pfx` and suppressed,
making the enclosing function return `None`. -/
def error_handler {ρ : Type} (pfx : String) (body : Except String (Option ρ)) :
    Outcome ρ :=
  match body with
  | .ok r => ⟨.ok r, []⟩
  | .error e => ⟨.ok none, [pfx ++ ": " ++ e]⟩

/-- A positional argument of a Python call made by a command runner: the
invocation context, a plain string, or a built-in action value
(`none` when no built-in exists under the name). -/
inductive PyArg (κ β : Type) where
  | ctx : κ → PyArg κ β
  | str : String → PyArg κ β
  | action : Option β → PyArg κ β
deriving DecidableEq

/-- A dynamically loaded plugin/override function: receives the positional
argument list of the call and may raise. -/
abbrev PyCallable (κ β ρ : Type) : Type :=
  List (PyArg κ β) → Except String (Option ρ)

/-- The opening and closing curly braces, written via code points to keep
them out of string literals. -/
def lbrace : Char := Char.ofNat 123

/-- See `lbrace`. -/
def rbrace : Char := Char.ofNat 125

/-- Scanner state for the `str.format` model: plain text, just saw an
opening or closing brace, or inside a replacement field whose characters
read so far are `acc` (reversed). -/
inductive FmtSt where
  | plain : FmtSt
  | sawL : FmtSt
  | sawR : FmtSt
  | field : List Char → FmtSt

/-- Core of Python `template.format(args=args)` as used by `_run_shell`:
doubled braces are literals, a brace-delimited field must be the keyword
`args` (the only keyword handed to `format`; any other field name raises,
as does an unbalanced brace or an empty field). Conversion and format
specs (`!r`, `:>10`) are not modelled. -/
def fmtGo (args : List Char) : List Char → FmtSt → Except String (List Char)
  | [], .plain => .ok []
  | [], .sawL => .error "Single opening brace encountered in format string"
  | [], .sawR => .error "Single closing brace encountered in format string"
  | [], .field _ => .error "Single opening brace encountered in format string"
  | c :: rest, .plain =>
    if c = lbrace then fmtGo args rest .sawL
    else if c = rbrace then fmtGo args rest .sawR
    else (fmtGo args rest .plain).map (fun l => c :: l)
  | c :: rest, .sawL =>
    if c = lbrace then (fmtGo args rest .plain).map (fun l => lbrace :: l)
    else if c = rbrace then .error "Unknown format field "
    else fmtGo args rest (.field [c])
  | c :: rest, .sawR =>
    if c = rbrace then (fmtGo args rest .plain).map (fun l => rbrace :: l)
    else .error "Single closing brace encountered in format string"
  | c :: rest, .field acc =>
    if c = rbrace then
      if acc.reverse = "args".data then (fmtGo args rest .plain).map (fun l => args ++ l)
      else .error ("Unknown format field " ++ String.mk acc.reverse)
    else fmtGo args rest (.field (c :: acc))

/-- `template.format(args=args)` on strings. -/
def pyFormat (template args : String) : Except String String :=
  (fmtGo args.data template.data .plain).map String.mk

/-- `UserCommand._run_shell`: substitute `args` into the definition and hand
the result to `commands.cmd_run`. There is no `error_handler` around this
body, so a substitution or execution exception escapes to the caller with
nothing reported. -/
def run_shell {ρ : Type} (cmd_run : String → Except String ρ)
    (definition args : String) : Outcome ρ :=
  match pyFormat definition args with
  | .error e => ⟨.error e, []⟩
  | .ok shell_cmd =>
    match cmd_run shell_cmd with
    | .error e => ⟨.error e, []⟩
    | .ok r => ⟨.ok (some r), []⟩

/-- `UserCommand._run_plugin`: inside `error_handler`, resolve the
definition via `load_plugin` (modelled as the environment `loadPlugin`) and
call the resolved function as `plugin_func(commands, args)`. -/

def run_plugin {κ β ρ : Type} (loadPlugin : String → Except String (PyCallable κ β ρ))
    (name definition : String) (ctx : κ) (args : String) : Outcome ρ :=
  error_handler ("Error running plugin command " ++ name)
    (match loadPlugin definition with
     | .error e => .error e
     | .ok f => f [PyArg.ctx ctx, PyArg.str args])

/-- `UserCommand._run_override`: identical to `_run_plugin` except for the
message prefix — the resolved function is called as
`override_func(commands, args)`, with no original built-in action fetched
or passed. -/
def run_override {κ β ρ : Type} (loadPlugin : String → Except String (PyCallable κ β ρ))
    (name definition : String) (ctx : κ) (args : String) : Outcome ρ :=
  error_handler ("Error running override command " ++ name)
    (match loadPlugin definition with
     | .error e => .error e
     | .ok f => f [PyArg.ctx ctx, PyArg.str args])

/-! ## Resolver (`load_plugin` entry-point form) -/

/-- The separator of the entry-point reference grammar. -/
def hashChar : Char := '#'

/-- `plugin_spec.split('#', 1)` when a separator is present: the text before
the first `#` and everything after it. -/
def epSplit (spec : List Char) : Option (List Char × List Char) :=
  if hashChar ∈ spec then
    some (spec.takeWhile (fun c => decide (c ≠ hashChar)),
          (spec.dropWhile (fun c => decide (c ≠ hashChar))).tail)
  else none

/-- The entry-point group key derived from the namespace portion:
`f'{package}_aider_commands'`. -/
def epGroup (pkg : List Char) : List Char := pkg ++ "_aider_commands".data

/-- `load_plugin`: a reference without `#` goes through dotted-path import
(the environment `import_string`); otherwise split on the first `#`,
consult the registered entry points of group `f'{package}_aider_commands'`
(the environment `eps`, already-loaded values standing for `.load()`),
failing when the group is empty or no extension carries the entry name.
The legacy branch for dict-shaped `entry_points()` results is not
modelled. -/
def load_plugin {κ : Type} (import_string : List Char → Except (List Char) κ)
    (eps : List Char → List (List Char × κ)) (spec : List Char) :
    Except (List Char) κ :=
  match epSplit spec with
  | none => import_string spec
  | some (pkg, entry) =>
    let group := epGroup pkg
    match eps group with
    | [] => .error ("No entry points found in group ".data ++ group)
    | e0 :: rest =>
      match (e0 :: rest).filter (fun p => p.1 == entry) with
      | [] => .error ("Entry point ".data ++ entry ++ " not found in ".data ++ group)
      | m :: _ => .ok m.2

/-! ## Concrete fixtures for witnesses and counterexamples -/

/-- A shell command as the loader builds it from a bare string definition. -/
def cmdEcho (n s : String) : UserCommand := ⟨n, "shell", .str s, some ("Run: " ++ s)⟩

/-- The three-parameter override function installed by the repository's own
tests and fixture plugin (`def override_func(commands, original_func,
args): return f"Override: {args}"`): it succeeds only when called with
(context, original action, argument string); any other argument list is a
`TypeError`, as in Python. -/
def overrideTestFunc : PyCallable Unit Unit String := fun argl =>
  match argl with
  | [PyArg.ctx _, PyArg.action _, PyArg.str s] => .ok (some ("Override: " ++ s))
  | _ => .error "TypeError: override_func missing 1 required positional argument: args"

/-- A resolution environment in which the reference
`my_plugin.override_commit` resolves to `overrideTestFunc` (the tests patch
`import_string` to return it). -/
def overrideTestLoad : String → Except String (PyCallable Unit Unit String) :=
  fun ref =>
    if ref = "my_plugin.override_commit" then .ok overrideTestFunc
    else .error ("Could not import module " ++ ref)

/-- An entry-point environment registering the extension `entry` under both
the group the spec names (`pkg_commands`, value 1) and the group the code
derives (`pkg_aider_commands`, value 2). -/
def c3Eps : List Char → List (List Char × Nat) := fun g =>
  if g = "pkg_commands".data then [("entry".data, 1)]
  else if g = "pkg_aider_commands".data then [("entry".data, 2)]
  else []

/-- A mapping-form definition carrying both a `help` field (empty string)
and a `description` field. -/
def c4Map : DictL YVal :=
  [("definition", .str "echo hi"), ("help", .str ""), ("description", .str "from description")]

/-- A mapping-form definition with a non-empty `help` and a `description`. -/
def c4MapW : DictL YVal :=
  [("definition", .str "echo"), ("help", .str "H"), ("description", .str "D")]

/-- One source mixing an invalid entry (mapping without `definition`) and a
valid sibling. -/
def cfgC7 : DictL CmdDef :=
  [("bad", .map [("type", .str "shell")]), ("good", .str "echo ok")]

/-- Two sources both defining the command `x`. -/
def cfgW1 : DictL CmdDef := [("x", CmdDef.str "echo one")]

/-- See `cfgW1`. -/
def cfgW2 : DictL CmdDef := [("x", CmdDef.str "echo two")]

/-- A registry with two sources, one command each. -/
def regC5a : UserCommandRegistry :=
  ⟨[("a", cmdEcho "a" "echo a"), ("b", cmdEcho "b" "echo b")],
   [("src1", {"a"}), ("src2", {"b"})]⟩

/-- A registry where the command `b` is referenced by two source sets. -/
def regC5b : UserCommandRegistry :=
  ⟨[("b", cmdEcho "b" "echo b"), ("c", cmdEcho "c" "echo c")],
   [("s2", {"b", "c"}), ("s3", {"b"})]⟩

/-- A one-source registry used for the unknown-target case. -/
def regC6 : UserCommandRegistry := ⟨[("a", cmdEcho "a" "echo a")], [("s1", {"a"})]⟩

/-- A registry in which `x` is simultaneously a source identifier (whose set
holds only `a`) and a command name, and the separate source `s2`
references `x`. -/
def regC10 : UserCommandRegistry :=
  ⟨[("x", cmdEcho "x" "echo x"), ("a", cmdEcho "a" "echo a")],
   [("x", {"a"}), ("s2", {"x"})]⟩

/-! ## Lemmas and claim theorems -/

theorem dictGet_filterKeys {α : Type} (m : DictL α) (p : String → Bool) (k : String) :
    dictGet (dictFilterKeys m p) k = if p k then dictGet m k else none := by
  induction m with
  | nil => simp [dictFilterKeys, dictGet]
  | cons hd tl ih =>
    obtain ⟨k0, v0⟩ := hd
    simp only [dictFilterKeys, List.filter_cons] at ih ⊢
    by_cases hp : p k0
    · by_cases hk : k0 = k
      · subst hk
        simp [dictGet, hp]
      · simp only [hp, if_true, dictGet, if_neg hk]
        exact ih
    · by_cases hk : k0 = k
      · subst hk
        simp only [Bool.of_not_eq_true hp, Bool.false_eq_true, if_false]
        rw [ih]
        simp [Bool.of_not_eq_true hp]
      · simp only [Bool.of_not_eq_true hp, Bool.false_eq_true, if_false]
        rw [ih]
        simp [dictGet, if_neg hk]

theorem dictContains_eq_false_iff {α : Type} (m : DictL α) (k : String) :
    dictContains m k = false ↔ dictGet m k = none := by
  induction m with
  | nil => simp [dictContains, dictGet]
  | cons hd tl ih =>
    obtain ⟨k0, v0⟩ := hd
    by_cases hk : k0 = k
    · simp [dictContains, dictGet, hk]
    · simp only [dictContains, dictGet, if_neg hk]
      exact ih

theorem dictContains_eq_true_of_get {α : Type} (m : DictL α) (k : String) (v : α)
    (h : dictGet m k = some v) : dictContains m k = true := by
  by_contra hc
  rw [Bool.not_eq_true] at hc
  rw [(dictContains_eq_false_iff m k).mp hc] at h
  exact Option.noConfusion h

theorem dictGet_eq_none_of_not_mem_keys {α : Type} (m : DictL α) (k : String)
    (h : k ∉ dictKeys m) : dictGet m k = none := by
  induction m with
  | nil => rfl
  | cons hd tl ih =>
    obtain ⟨k0, v0⟩ := hd
    simp only [dictKeys, List.map_cons, List.mem_cons] at h
    push_neg at h
    simp only [dictGet]
    rw [if_neg (fun he => h.1 he.symm)]
    exact ih h.2

theorem not_mem_keys_of_get_none {α : Type} (m : DictL α) (k : String)
    (h : dictGet m k = none) : k ∉ dictKeys m := by
  induction m with
  | nil => simp [dictKeys]
  | cons hd tl ih =>
    obtain ⟨k0, v0⟩ := hd
    by_cases hk : k0 = k
    · simp [dictGet, hk] at h
    · simp only [dictGet, if_neg hk] at h
      simp only [dictKeys, List.map_cons, List.mem_cons]
      push_neg
      exact ⟨fun he => hk he.symm, ih h⟩

theorem dictGet_set_self {α : Type} (m : DictL α) (k : String) (v : α) :
    dictGet (dictSet m k v) k = some v := by
  induction m with
  | nil => simp [dictSet, dictGet]
  | cons hd tl ih =>
    obtain ⟨k0, v0⟩ := hd
    by_cases hk : k0 = k
    · simp [dictSet, dictGet, hk]
    · simp only [dictSet, if_neg hk, dictGet, if_neg hk]
      exact ih

theorem dictGet_set_ne {α : Type} (m : DictL α) (k k2 : String) (v : α)
    (h : k2 ≠ k) : dictGet (dictSet m k v) k2 = dictGet m k2 := by
  have hne : ¬ (k = k2) := fun he => h he.symm
  induction m with
  | nil =>
    simp only [dictSet, dictGet]
    rw [if_neg hne]
  | cons hd tl ih =>
    obtain ⟨k0, v0⟩ := hd
    by_cases hk : k0 = k
    · subst hk
      simp only [dictSet, if_pos rfl, dictGet]
      rw [if_neg hne, if_neg hne]
    · simp only [dictSet, if_neg hk, dictGet]
      by_cases h2 : k0 = k2
      · simp [h2]
      · rw [if_neg h2, if_neg h2]
        exact ih

theorem dictKeys_set_of_contains {α : Type} (m : DictL α) (k : String) (v : α)
    (hc : dictContains m k = true) : dictKeys (dictSet m k v) = dictKeys m := by
  induction m with
  | nil => simp [dictContains] at hc
  | cons hd tl ih =>
    obtain ⟨k0, v0⟩ := hd
    by_cases hk : k0 = k
    · simp [dictSet, hk, dictKeys]
    · simp only [dictContains, if_neg hk] at hc
      simp only [dictSet, if_neg hk, dictKeys, List.map_cons]
      exact congrArg _ (ih hc)

theorem dictKeys_set_of_not_contains {α : Type} (m : DictL α) (k : String) (v : α)
    (hc : dictContains m k = false) : dictKeys (dictSet m k v) = dictKeys m ++ [k] := by
  induction m with
  | nil => simp [dictSet, dictKeys]
  | cons hd tl ih =>
    obtain ⟨k0, v0⟩ := hd
    by_cases hk : k0 = k
    · simp [dictContains, hk] at hc
    · simp only [dictContains, if_neg hk] at hc
      simp only [dictSet, if_neg hk, dictKeys, List.map_cons, List.cons_append]
      exact congrArg _ (ih hc)

theorem keysNodup_set {α : Type} (m : DictL α) (k : String) (v : α)
    (h : KeysNodup m) : KeysNodup (dictSet m k v) := by
  unfold KeysNodup at h ⊢
  by_cases hc : dictContains m k
  · rw [dictKeys_set_of_contains m k v hc]
    exact h
  · rw [Bool.not_eq_true] at hc
    rw [dictKeys_set_of_not_contains m k v hc]
    rw [List.nodup_append]
    refine ⟨h, List.nodup_singleton k, ?_⟩
    intro a ha hb
    simp only [List.mem_singleton] at hb
    subst hb
    rw [dictContains_eq_false_iff] at hc
    exact not_mem_keys_of_get_none m a hc ha

theorem dictGet_update {α : Type} (m other : DictL α) (k : String)
    (h : KeysNodup other) :
    dictGet (dictUpdate m other) k = (dictGet other k).or (dictGet m k) := by
  induction other generalizing m with
  | nil => simp [dictUpdate, dictGet, Option.or]
  | cons hd tl ih =>
    obtain ⟨k0, v0⟩ := hd
    unfold KeysNodup dictKeys at h
    simp only [List.map_cons, List.nodup_cons] at h
    have htl : KeysNodup tl := h.2
    unfold dictUpdate at ih ⊢
    simp only [List.foldl_cons]
    rw [ih (dictSet m k0 v0) htl]
    by_cases hk : k0 = k
    · subst hk
      have hnone : dictGet tl k0 = none :=
        dictGet_eq_none_of_not_mem_keys tl k0 h.1
      simp [dictGet, hnone, Option.or, dictGet_set_self m k0 v0]
    · simp only [dictGet, if_neg hk]
      rw [dictGet_set_ne m k0 k v0 (fun he => hk he.symm)]

theorem dictGet_dropReconcile (target : String) (sources : DictL (Finset String))
    (h : KeysNodup sources) (s : String) :
    dictGet (dropReconcile target sources) s =
      (dictGet sources s).bind (reconcileStep target) := by
  induction sources with
  | nil => simp [dropReconcile, dictGet]
  | cons hd tl ih =>
    obtain ⟨s0, ns0⟩ := hd
    unfold KeysNodup dictKeys at h
    simp only [List.map_cons, List.nodup_cons] at h
    have htl : KeysNodup tl := h.2
    simp only [dropReconcile, List.filterMap_cons] at ih ⊢
    cases hstep : reconcileStep target ns0 with
    | none =>
      simp only [Option.map_none']
      by_cases hs : s0 = s
      · subst hs
        rw [ih htl]
        rw [dictGet_eq_none_of_not_mem_keys tl s0 h.1]
        simp [dictGet, hstep]
      · rw [ih htl]
        simp [dictGet, if_neg hs]
    | some n2 =>
      simp only [Option.map_some']
      by_cases hs : s0 = s
      · subst hs
        simp [dictGet, hstep]
      · simp only [dictGet, if_neg hs]
        rw [ih htl]

theorem mem_unique_of_keysNodup {α : Type} (m : List (String × α)) (k : String)
    (a b : α) (h : KeysNodup m) (ha : (k, a) ∈ m) (hb : (k, b) ∈ m) : a = b := by
  induction m with
  | nil => cases ha
  | cons hd tl ih =>
    obtain ⟨k0, v0⟩ := hd
    unfold KeysNodup dictKeys at h
    simp only [List.map_cons, List.nodup_cons] at h
    rcases List.mem_cons.mp ha with ha1 | ha1 <;> rcases List.mem_cons.mp hb with hb1 | hb1
    · have hab : (k, a) = (k, b) := ha1.trans hb1.symm
      injection hab with h1 h2
    · exfalso
      injection ha1 with he1 he2
      subst he1
      exact h.1 (List.mem_map.mpr ⟨(k, b), hb1, rfl⟩)
    · exfalso
      injection hb1 with he1 he2
      subst he1
      exact h.1 (List.mem_map.mpr ⟨(k, a), ha1, rfl⟩)
    · exact ih h.2 ha1 hb1

theorem keysNodup_parse_go (cfg : List (String × CmdDef)) (acc : DictL UserCommand)
    (ws : List String) (h : KeysNodup acc) : KeysNodup (parse_go cfg acc ws).1 := by
  induction cfg generalizing acc ws with
  | nil => exact h
  | cons hd tl ih =>
    obtain ⟨name, d⟩ := hd
    simp only [parse_go]
    cases create_command name d with
    | ok c => exact ih (dictSet acc name c) ws (keysNodup_set acc name c h)
    | error e => exact ih acc (ws ++ [warnMsg name e]) h

theorem dictGet_parse_go_frame (cfg : List (String × CmdDef)) (acc : DictL UserCommand)
    (ws : List String) (name : String) (h : name ∉ cfg.map Prod.fst) :
    dictGet (parse_go cfg acc ws).1 name = dictGet acc name := by
  induction cfg generalizing acc ws with
  | nil => rfl
  | cons hd tl ih =>
    obtain ⟨n0, d0⟩ := hd
    simp only [List.map_cons, List.mem_cons] at h
    push_neg at h
    simp only [parse_go]
    cases create_command n0 d0 with
    | ok c =>
      rw [ih (dictSet acc n0 c) ws h.2]
      exact dictGet_set_ne acc n0 name c h.1
    | error e => exact ih acc _ h.2

theorem dictGet_parse_go_none (cfg : List (String × CmdDef)) (acc : DictL UserCommand)
    (ws : List String) (name : String)
    (hall : ∀ d, (name, d) ∈ cfg → ∃ e, create_command name d = .error e)
    (hacc : dictGet acc name = none) :
    dictGet (parse_go cfg acc ws).1 name = none := by
  induction cfg generalizing acc ws with
  | nil => exact hacc
  | cons hd tl ih =>
    obtain ⟨n0, d0⟩ := hd
    simp only [parse_go]
    cases hcr : create_command n0 d0 with
    | ok c =>
      have hne : n0 ≠ name := by
        intro he
        subst he
        obtain ⟨e, herr⟩ := hall d0 (List.mem_cons_self _ _)
        rw [hcr] at herr
        exact Except.noConfusion herr
      refine ih (dictSet acc n0 c) ws (fun d hd => hall d (List.mem_cons_of_mem _ hd)) ?_
      rw [dictGet_set_ne acc n0 name c (fun he => hne he.symm)]
      exact hacc
    | error e =>
      exact ih acc _ (fun d hd => hall d (List.mem_cons_of_mem _ hd)) hacc

theorem dictGet_parse_go_ok (cfg : List (String × CmdDef)) (acc : DictL UserCommand)
    (ws : List String) (name : String) (d : CmdDef) (c : UserCommand)
    (hnd : KeysNodup cfg) (hmem : (name, d) ∈ cfg)
    (hok : create_command name d = .ok c) :
    dictGet (parse_go cfg acc ws).1 name = some c := by
  induction cfg generalizing acc ws with
  | nil => cases hmem
  | cons hd tl ih =>
    obtain ⟨n0, d0⟩ := hd
    unfold KeysNodup dictKeys at hnd
    simp only [List.map_cons, List.nodup_cons] at hnd
    rcases List.mem_cons.mp hmem with h1 | h1
    · injection h1 with h1a h1b
      subst h1a
      subst h1b
      simp only [parse_go, hok]
      rw [dictGet_parse_go_frame tl (dictSet acc name c) ws name hnd.1]
      exact dictGet_set_self acc name c
    · simp only [parse_go]
      cases hcr : create_command n0 d0 with
      | ok c0 => exact ih (dictSet acc n0 c0) ws hnd.2 h1
      | error e => exact ih acc _ hnd.2 h1

theorem parse_go_ws_mono (cfg : List (String × CmdDef)) (acc : DictL UserCommand)
    (ws : List String) (w : String) (h : w ∈ ws) : w ∈ (parse_go cfg acc ws).2 := by
  induction cfg generalizing acc ws with
  | nil => exact h
  | cons hd tl ih =>
    obtain ⟨n0, d0⟩ := hd
    simp only [parse_go]
    cases create_command n0 d0 with
    | ok c => exact ih _ _ h
    | error e => exact ih _ _ (List.mem_append_left _ h)

theorem parse_go_warn_mem (cfg : List (String × CmdDef)) (acc : DictL UserCommand)
    (ws : List String) (name : String) (d : CmdDef) (e : String)
    (hmem : (name, d) ∈ cfg) (herr : create_command name d = .error e) :
    warnMsg name e ∈ (parse_go cfg acc ws).2 := by
  induction cfg generalizing acc ws with
  | nil => cases hmem
  | cons hd tl ih =>
    obtain ⟨n0, d0⟩ := hd
    rcases List.mem_cons.mp hmem with h1 | h1
    · injection h1 with h1a h1b
      subst h1a
      subst h1b
      simp only [parse_go, herr]
      exact parse_go_ws_mono tl acc _ _ (List.mem_append_right _ (List.mem_singleton.mpr rfl))
    · simp only [parse_go]
      cases create_command n0 d0 with
      | ok c => exact ih _ _ h1
      | error e0 => exact ih _ _ h1

theorem create_command_error_of_invalid (name : String) (m : DictL YVal)
    (hinv : dictContains m "definition" = false ∨
      ¬((dictGet m "type").getD (.str "shell") = YVal.str "shell" ∨
        (dictGet m "type").getD (.str "shell") = YVal.str "plugin" ∨
        (dictGet m "type").getD (.str "shell") = YVal.str "override")) :
    ∃ e, create_command name (.map m) = .error e := by
  by_cases hdef : dictContains m "definition"
  · rcases hinv with h | h
    · rw [hdef] at h
      exact Bool.noConfusion h
    · refine ⟨"Unknown command type: " ++ pyStr ((dictGet m "type").getD (.str "shell")), ?_⟩
      simp only [create_command, hdef, Bool.not_true, Bool.false_eq_true, if_false]
      rw [if_neg h]
  · refine ⟨"Command definition must include definition field", ?_⟩
    simp only [create_command]
    rw [Bool.not_eq_true] at hdef
    rw [hdef]
    rfl

theorem dictGet_load_go_none (cfgs : List (DictL CmdDef)) (acc : DictL UserCommand)
    (name : String)
    (h : ∀ cfg ∈ cfgs, dictGet (parse_commands cfg).1 name = none) :
    dictGet (cfgs.foldl (fun a cfg => dictUpdate a (parse_commands cfg).1) acc) name =
      dictGet acc name := by
  induction cfgs generalizing acc with
  | nil => rfl
  | cons cfg rest ih =>
    simp only [List.foldl_cons]
    rw [ih (dictUpdate acc (parse_commands cfg).1)
      (fun c hc => h c (List.mem_cons_of_mem _ hc))]
    rw [dictGet_update acc (parse_commands cfg).1 name
      (keysNodup_parse_go cfg [] [] List.nodup_nil)]
    rw [h cfg (List.mem_cons_self _ _)]
    rfl

theorem takeWhile_append_stop (p : Char → Bool) (l r : List Char) (x : Char)
    (hl : ∀ c ∈ l, p c = true) (hx : p x = false) :
    ((l ++ x :: r).takeWhile p) = l := by
  induction l with
  | nil => simp [List.takeWhile, hx]
  | cons c cs ih =>
    simp only [List.cons_append, List.takeWhile]
    rw [hl c (List.mem_cons_self _ _)]
    exact congrArg _ (ih (fun c2 hc2 => hl c2 (List.mem_cons_of_mem _ hc2)))

theorem dropWhile_append_stop (p : Char → Bool) (l r : List Char) (x : Char)
    (hl : ∀ c ∈ l, p c = true) (hx : p x = false) :
    ((l ++ x :: r).dropWhile p) = x :: r := by
  induction l with
  | nil => simp [List.dropWhile, hx]
  | cons c cs ih =>
    simp only [List.cons_append, List.dropWhile]
    rw [hl c (List.mem_cons_self _ _)]
    exact ih (fun c2 hc2 => hl c2 (List.mem_cons_of_mem _ hc2))

/-- C9: construction of a `UserCommand` with a kind outside
{shell, plugin, override} fails with the `Unknown command type` error, and
every successfully constructed command has its kind in that set. -/
theorem command_type_invariant (name ct : String) (defv : YVal) (desc : Option String) :
    (¬(ct = "shell" ∨ ct = "plugin" ∨ ct = "override") →
      mkUserCommand name ct defv desc = .error ("Unknown command type: " ++ ct)) ∧
    (∀ c, mkUserCommand name ct defv desc = .ok c →
      (c.command_type = "shell" ∨ c.command_type = "plugin" ∨ c.command_type = "override")) := by
  constructor
  · intro h
    simp only [mkUserCommand, if_neg h]
  · intro c hc
    by_cases h : ct = "shell" ∨ ct = "plugin" ∨ ct = "override"
    · rw [mkUserCommand, if_pos h] at hc
      injection hc with hc1
      rw [← hc1]
      exact h
    · rw [mkUserCommand, if_neg h] at hc
      exact Except.noConfusion hc

/-- C9 witness: the concrete kind `frobnicate` is rejected. -/
theorem command_type_invariant_witness :
    mkUserCommand "x" "frobnicate" YVal.null none =
      .error ("Unknown command type: " ++ "frobnicate") :=
  (command_type_invariant "x" "frobnicate" YVal.null none).1 (by decide)

/-- C6: `drop_commands` on a target that is neither a known source nor a
known command name returns the registry unchanged together with `false`. -/
theorem drop_commands_unknown_noop (r : UserCommandRegistry) (target : String)
    (h1 : dictContains r.sources target = false)
    (h2 : dictContains r.commands target = false) :
    drop_commands r target = (r, false) := by
  simp [drop_commands, h1, h2]

/-- C6 witness: dropping the unknown target `zzz` from a populated registry
fails and changes nothing. -/
theorem drop_commands_unknown_noop_witness :
    drop_commands regC6 "zzz" = (regC6, false) :=
  drop_commands_unknown_noop regC6 "zzz" (by decide) (by decide)

/-- C1 (code bug): `_run_override` calls the resolved function as
`override_func(commands, args)` — two positional arguments, no original
built-in action — so the three-parameter override installed by the
repository's own tests raises `TypeError`, which the error handler reports
and suppresses; the call the tests and spec expect, with the original
action as second argument, would have succeeded. -/
theorem override_call_omits_original_action :
    run_override overrideTestLoad "commit" "my_plugin.override_commit" () "test message" =
      ⟨.ok none,
       ["Error running override command commit: " ++
        "TypeError: override_func missing 1 required positional argument: args"]⟩ ∧
    overrideTestFunc [PyArg.ctx (), PyArg.action none, PyArg.str "test message"] =
      .ok (some ("Override: " ++ "test message")) :=
  ⟨rfl, rfl⟩

/-- C2 counterexample: for the shell command definition `echo {argz}` the
substitution error is not delivered to the error-reporting capability
(nothing is reported) and the invocation raises to its caller. -/
theorem shell_error_unreported_cex :
    (run_shell (fun _ => Except.ok (0 : Nat)) "echo {argz}" "x").reported = [] ∧
    (run_shell (fun _ => Except.ok (0 : Nat)) "echo {argz}" "x").result =
      .error "Unknown format field argz" :=
  ⟨rfl, rfl⟩

/-- C2 amended: a shell invocation never reports through the error
capability, and any substitution or execution error propagates unchanged
to the caller (there is no error handler around `_run_shell`). -/
theorem shell_error_propagates_unreported {ρ : Type}
    (cmd_run : String → Except String ρ) (definition args : String) :
    (run_shell cmd_run definition args).reported = [] ∧
    (∀ e, pyFormat definition args = .error e →
      (run_shell cmd_run definition args).result = .error e) ∧
    (∀ cmd e, pyFormat definition args = .ok cmd → cmd_run cmd = .error e →
      (run_shell cmd_run definition args).result = .error e) := by
  refine ⟨?_, fun e he => ?_, fun cmd e hok herr => ?_⟩
  · cases hpf : pyFormat definition args with
    | error e => simp [run_shell, hpf]
    | ok cmd =>
      cases hcr : cmd_run cmd with
      | error e => simp [run_shell, hpf, hcr]
      | ok res => simp [run_shell, hpf, hcr]
  · simp [run_shell, he]
  · simp [run_shell, hok, herr]

/-- C2 witness: a concrete failing substitution propagates its error. -/
theorem shell_error_propagates_witness :
    (run_shell (fun _ => Except.ok (1 : Nat)) "hello {nope}" "y").result =
      .error "Unknown format field nope" :=
  (shell_error_propagates_unreported (fun _ => Except.ok (1 : Nat)) "hello {nope}" "y").2.1
    "Unknown format field nope" rfl

/-- C3 counterexample: with the extension `entry` registered under the group
`pkg_commands` with value 1 and under `pkg_aider_commands` with value 2,
resolving `pkg#entry` yields 2 — the lookup happens under
`pkg_aider_commands`, and the derived group key differs from
`pkg_commands`. -/
theorem entry_point_group_cex :
    load_plugin (fun _ => .error "ImportError".data) c3Eps ("pkg#entry".data) = .ok 2 ∧
    epGroup ("pkg".data) ≠ ("pkg".data ++ "_commands".data) :=
  ⟨rfl, by decide⟩

/-- C3 amended: an entry-point reference is split on its first `#`, and the
registered extensions are consulted only under the group key
`<namespace>_aider_commands`. -/
theorem entry_point_group_amended (pkg entry : List Char) (h : hashChar ∉ pkg) :
    epSplit (pkg ++ hashChar :: entry) = some (pkg, entry) ∧
    epGroup pkg = pkg ++ "_aider_commands".data ∧
    (∀ (κ : Type) (imp : List Char → Except (List Char) κ)
       (eps1 eps2 : List Char → List (List Char × κ)),
      eps1 (pkg ++ "_aider_commands".data) = eps2 (pkg ++ "_aider_commands".data) →
      load_plugin imp eps1 (pkg ++ hashChar :: entry) =
        load_plugin imp eps2 (pkg ++ hashChar :: entry)) := by
  have hmem : hashChar ∈ pkg ++ hashChar :: entry :=
    List.mem_append_right _ (List.mem_cons_self _ _)
  have hl : ∀ c ∈ pkg, (fun c => decide (c ≠ hashChar)) c = true := by
    intro c hc
    simp only [decide_eq_true_eq]
    intro he
    subst he
    exact h hc
  have hx : (fun c => decide (c ≠ hashChar)) hashChar = false := by simp
  have hsplit : epSplit (pkg ++ hashChar :: entry) = some (pkg, entry) := by
    unfold epSplit
    rw [if_pos hmem]
    rw [takeWhile_append_stop _ pkg entry hashChar hl hx]
    rw [dropWhile_append_stop _ pkg entry hashChar hl hx]
    rfl
  refine ⟨hsplit, rfl, ?_⟩
  intro κ imp eps1 eps2 heq
  unfold load_plugin
  rw [hsplit]
  simp only
  rw [show epGroup pkg = pkg ++ "_aider_commands".data from rfl, heq]

/-- C3 witness: the split of a concrete reference. -/
theorem entry_point_group_witness :
    epSplit ("pkg".data ++ hashChar :: "entry".data) = some ("pkg".data, "entry".data) :=
  (entry_point_group_amended ("pkg".data) ("entry".data) (by decide)).1

/-- C4 counterexample: a mapping containing both a `help` field (value `""`)
and a `description` field loads into a command whose description is the
`description` value, not the `help` value — the `or`-chain skips falsy
`help`. -/
theorem help_precedence_cex :
    dictGet c4Map "help" = some (.str "") ∧
    dictGet c4Map "description" = some (.str "from description") ∧
    create_command "t" (.map c4Map) =
      .ok ⟨"t", "shell", .str "echo hi", some "from description"⟩ ∧
    ("from description" : String) ≠ "" :=
  ⟨rfl, rfl, rfl, by decide⟩

/-- C4 amended: `help` takes precedence over `description` only when its
value is truthy (a non-empty string); a `help` that is absent, null or
empty falls through to a truthy `description`. -/
theorem help_precedence_amended :
    (∀ (m : DictL YVal) (name h : String),
      dictContains m "definition" = true →
      dictGet m "help" = some (.str h) → h.isEmpty = false →
      ((dictGet m "type").getD (.str "shell") = YVal.str "shell" ∨
       (dictGet m "type").getD (.str "shell") = YVal.str "plugin" ∨
       (dictGet m "type").getD (.str "shell") = YVal.str "override") →
      Except.map UserCommand.description (create_command name (.map m)) = .ok (some h)) ∧
    (∀ (m : DictL YVal) (name dsc : String),
      dictContains m "definition" = true →
      truthy ((dictGet m "help").getD .null) = false →
      dictGet m "description" = some (.str dsc) → dsc.isEmpty = false →
      ((dictGet m "type").getD (.str "shell") = YVal.str "shell" ∨
       (dictGet m "type").getD (.str "shell") = YVal.str "plugin" ∨
       (dictGet m "type").getD (.str "shell") = YVal.str "override") →
      Except.map UserCommand.description (create_command name (.map m)) = .ok (some dsc)) := by
  constructor
  · intro m name h hdef hh hne hty
    have hht : helpText m ((dictGet m "definition").getD .null) = h := by
      unfold helpText
      rw [hh]
      simp [truthy, pyStr, hne]
    rcases hty with h1 | h1 | h1 <;>
      simp [create_command, hdef, h1, mkUserCommand, pyStr, hht, Except.map]
  · intro m name dsc hdef hfal hdsc hne hty
    have hht : helpText m ((dictGet m "definition").getD .null) = dsc := by
      unfold helpText
      rw [hfal, hdsc]
      simp [truthy, pyStr, hne]
    rcases hty with h1 | h1 | h1 <;>
      simp [create_command, hdef, h1, mkUserCommand, pyStr, hht, Except.map]

/-- C4 witness: a non-empty `help` wins over `description`. -/
theorem help_precedence_witness :
    Except.map UserCommand.description (create_command "t" (.map c4MapW)) = .ok (some "H") :=
  help_precedence_amended.1 c4MapW "t" "H" rfl rfl rfl (Or.inl rfl)

/-- C7: in a source whose mapping has no duplicate names, every entry that
is a mapping missing `definition` or carrying a type outside
{shell, plugin, override} is absent from the parse result and leaves a
warning, while every entry that builds successfully is present with its
built command. -/
theorem parse_skips_invalid_keeps_valid (cfg : DictL CmdDef) (hnd : KeysNodup cfg) :
    (∀ name m, (name, CmdDef.map m) ∈ cfg →
      (dictContains m "definition" = false ∨
       ¬((dictGet m "type").getD (.str "shell") = YVal.str "shell" ∨
         (dictGet m "type").getD (.str "shell") = YVal.str "plugin" ∨
         (dictGet m "type").getD (.str "shell") = YVal.str "override")) →
      (dictGet (parse_commands cfg).1 name = none ∧
       ∃ e, warnMsg name e ∈ (parse_commands cfg).2)) ∧
    (∀ name d c, (name, d) ∈ cfg → create_command name d = .ok c →
      dictGet (parse_commands cfg).1 name = some c) := by
  constructor
  · intro name m hmem hinv
    obtain ⟨e, herr⟩ := create_command_error_of_invalid name m hinv
    constructor
    · refine dictGet_parse_go_none cfg [] [] name ?_ rfl
      intro d hd
      have hdm : d = CmdDef.map m :=
        mem_unique_of_keysNodup cfg name d (CmdDef.map m) hnd hd hmem
      rw [hdm]
      exact ⟨e, herr⟩
    · exact ⟨e, parse_go_warn_mem cfg [] [] name (CmdDef.map m) e hmem herr⟩
  · intro name d c hmem hok
    exact dictGet_parse_go_ok cfg [] [] name d c hnd hmem hok

/-- C7 witness: the entry `bad` (mapping without `definition`) is skipped
while its sibling `good` still loads. -/
theorem parse_skips_invalid_keeps_valid_witness :
    dictGet (parse_commands cfgC7).1 "bad" = none ∧
    dictGet (parse_commands cfgC7).1 "good" =
      some ⟨"good", "shell", .str "echo ok", some "Run: echo ok"⟩ := by
  have h := parse_skips_invalid_keeps_valid cfgC7 (by unfold KeysNodup; decide)
  exact ⟨(h.1 "bad" [("type", .str "shell")] (by decide) (Or.inl (by decide))).1,
         h.2 "good" (.str "echo ok") ⟨"good", "shell", .str "echo ok", some "Run: echo ok"⟩
           (by decide) rfl⟩

/-- C8: if a source successfully defines `name` and no later source defines
it, the loaded mapping holds that source's command for `name` — later
sources take precedence over all earlier ones in the merge. -/
theorem later_source_wins (pre post : List (DictL CmdDef)) (cfg : DictL CmdDef)
    (name : String) (c : UserCommand)
    (hc : dictGet (parse_commands cfg).1 name = some c)
    (hpost : ∀ cfg2 ∈ post, dictGet (parse_commands cfg2).1 name = none) :
    dictGet (load_commands (pre ++ cfg :: post)) name = some c := by
  unfold load_commands
  rw [List.foldl_append]
  simp only [List.foldl_cons]
  rw [dictGet_load_go_none post _ name hpost]
  rw [dictGet_update _ (parse_commands cfg).1 name
    (keysNodup_parse_go cfg [] [] List.nodup_nil)]
  rw [hc]
  rfl

/-- C8 witness: two sources both defining `x`; the second one's definition
is the one loaded. -/
theorem later_source_wins_witness :
    dictGet (load_commands [cfgW1, cfgW2]) "x" =
      some ⟨"x", "shell", .str "echo two", some "Run: echo two"⟩ :=
  later_source_wins [cfgW1] [] cfgW2 "x"
    ⟨"x", "shell", .str "echo two", some "Run: echo two"⟩ rfl (by simp)

/-- C5: dropping a known source removes exactly the names that source
contributed and the source entry itself, returning success; dropping a
known command name that is not a source removes exactly that command,
removes the name from every source set referencing it, deletes any source
entry left empty, and returns success. -/
theorem drop_commands_known_targets (r : UserCommandRegistry) (target : String) :
    (∀ names, dictGet r.sources target = some names →
      ((drop_commands r target).2 = true ∧
       (∀ n, n ∈ names → dictGet (drop_commands r target).1.commands n = none) ∧
       (∀ n, n ∉ names →
         dictGet (drop_commands r target).1.commands n = dictGet r.commands n) ∧
       dictGet (drop_commands r target).1.sources target = none ∧
       (∀ s, s ≠ target →
         dictGet (drop_commands r target).1.sources s = dictGet r.sources s))) ∧
    (dictGet r.sources target = none → dictContains r.commands target = true →
     KeysNodup r.sources →
      ((drop_commands r target).2 = true ∧
       dictGet (drop_commands r target).1.commands target = none ∧
       (∀ n, n ≠ target →
         dictGet (drop_commands r target).1.commands n = dictGet r.commands n) ∧
       (∀ s, dictGet (drop_commands r target).1.sources s =
         (dictGet r.sources s).bind (reconcileStep target)))) := by
  constructor
  · intro names hsrc
    have hcon : dictContains r.sources target = true :=
      dictContains_eq_true_of_get _ _ _ hsrc
    have hdrop : drop_commands r target =
        (⟨dictEraseKeys r.commands names, dictErase r.sources target⟩, true) := by
      simp [drop_commands, hcon, hsrc]
    refine ⟨by rw [hdrop], fun n hn => ?_, fun n hn => ?_, ?_, fun s hs => ?_⟩
    · rw [hdrop]
      show dictGet (dictEraseKeys r.commands names) n = none
      unfold dictEraseKeys
      rw [dictGet_filterKeys]
      simp [hn]
    · rw [hdrop]
      show dictGet (dictEraseKeys r.commands names) n = dictGet r.commands n
      unfold dictEraseKeys
      rw [dictGet_filterKeys]
      simp [hn]
    · rw [hdrop]
      show dictGet (dictErase r.sources target) target = none
      unfold dictErase
      rw [dictGet_filterKeys]
      simp
    · rw [hdrop]
      show dictGet (dictErase r.sources target) s = dictGet r.sources s
      unfold dictErase
      rw [dictGet_filterKeys]
      simp [hs]
  · intro hnone hcmd hnd
    have hcon : dictContains r.sources target = false :=
      (dictContains_eq_false_iff _ _).mpr hnone
    have hdrop : drop_commands r target =
        (⟨dictErase r.commands target, dropReconcile target r.sources⟩, true) := by
      simp [drop_commands, hcon, hcmd]
    refine ⟨by rw [hdrop], ?_, fun n hn => ?_, fun s => ?_⟩
    · rw [hdrop]
      show dictGet (dictErase r.commands target) target = none
      unfold dictErase
      rw [dictGet_filterKeys]
      simp
    · rw [hdrop]
      show dictGet (dictErase r.commands target) n = dictGet r.commands n
      unfold dictErase
      rw [dictGet_filterKeys]
      simp [hn]
    · rw [hdrop]
      show dictGet (dropReconcile target r.sources) s =
        (dictGet r.sources s).bind (reconcileStep target)
      exact dictGet_dropReconcile target r.sources hnd s

/-- C5 witness: dropping the source `src1` removes its command `a` and its
entry; dropping the command name `b` (not a source) removes it and
succeeds. -/
theorem drop_commands_known_targets_witness :
    (drop_commands regC5a "src1").2 = true ∧
    dictGet (drop_commands regC5a "src1").1.commands "a" = none ∧
    dictGet (drop_commands regC5a "src1").1.sources "src1" = none ∧
    (drop_commands regC5b "b").2 = true ∧
    dictGet (drop_commands regC5b "b").1.commands "b" = none := by
  have ha := (drop_commands_known_targets regC5a "src1").1 {"a"} (by decide)
  have hb := (drop_commands_known_targets regC5b "b").2 (by decide) (by decide) (by unfold KeysNodup; decide)
  exact ⟨ha.1, ha.2.1 "a" (by decide), ha.2.2.2.1, hb.1, hb.2.1⟩

/-- C10: when the target is simultaneously a source identifier and a command
name, the source branch wins: the call succeeds, the source entry is
removed while every other source set is left untouched (no per-name
reconciliation), and the command named `target` itself is removed only if
that source's set contains it. -/
theorem drop_commands_source_precedence (r : UserCommandRegistry) (target : String)
    (names : Finset String)
    (h1 : dictGet r.sources target = some names)
    (_h2 : dictContains r.commands target = true) :
    (drop_commands r target).2 = true ∧
    dictGet (drop_commands r target).1.sources target = none ∧
    (∀ s, s ≠ target →
      dictGet (drop_commands r target).1.sources s = dictGet r.sources s) ∧
    dictGet (drop_commands r target).1.commands target =
      (if target ∈ names then none else dictGet r.commands target) := by
  have hcon : dictContains r.sources target = true :=
    dictContains_eq_true_of_get _ _ _ h1
  have hdrop : drop_commands r target =
      (⟨dictEraseKeys r.commands names, dictErase r.sources target⟩, true) := by
    simp [drop_commands, hcon, h1]
  refine ⟨by rw [hdrop], ?_, fun s hs => ?_, ?_⟩
  · rw [hdrop]
    show dictGet (dictErase r.sources target) target = none
    unfold dictErase
    rw [dictGet_filterKeys]
    simp
  · rw [hdrop]
    show dictGet (dictErase r.sources target) s = dictGet r.sources s
    unfold dictErase
    rw [dictGet_filterKeys]
    simp [hs]
  · rw [hdrop]
    show dictGet (dictEraseKeys r.commands names) target =
      (if target ∈ names then none else dictGet r.commands target)
    unfold dictEraseKeys
    rw [dictGet_filterKeys]
    by_cases hmem : target ∈ names
    · simp [hmem]
    · simp [hmem]

/-- C10 witness: in `regC10`, `x` names both a source (set `{a}`) and a
command; dropping `x` succeeds via the source branch, leaves `s2`
referencing `x`, and keeps the command `x` because the set holds only
`a`. -/
theorem drop_commands_source_precedence_witness :
    (drop_commands regC10 "x").2 = true ∧
    dictGet (drop_commands regC10 "x").1.sources "s2" = some {"x"} ∧
    dictGet (drop_commands regC10 "x").1.commands "x" = some (cmdEcho "x" "echo x") := by
  have h := drop_commands_source_precedence regC10 "x" {"a"} (by decide) (by decide)
  refine ⟨h.1, ?_, ?_⟩
  · rw [h.2.2.1 "s2" (by decide)]
    decide
  · rw [h.2.2.2]
    decide
